import Mathlib

/-!
Verification of the vibectl/run GitHub action core (src/main.ts) against its
natural-language specification.

The TypeScript source is shallowly embedded: JS strings are modelled as
`List Char`, thrown JS exceptions as `Except Thrown`, and the mutable
`StreamState` record is threaded explicitly.  The JS builtins the code relies
on (`String.prototype.split`, `JSON.parse`, property access, truthiness,
`String.prototype.replace` with the fixed bearer-token regex) are modelled
by executable Lean functions that follow the ECMAScript semantics on the
fragments the program exercises.
-/

namespace VibectlRun

/-- The ECMAScript whitespace set matched by the regex class backslash-s and
trimmed by `String.prototype.trim` (WhiteSpace plus LineTerminator). -/
def jsWsList : List Char :=
  [' ', '\t', '\n', '\r', '\x0b', '\x0c',
   '\u00a0', '\u1680',
   '\u2000', '\u2001', '\u2002', '\u2003', '\u2004', '\u2005',
   '\u2006', '\u2007', '\u2008', '\u2009', '\u200a',
   '\u2028', '\u2029', '\u202f', '\u205f', '\u3000', '\ufeff']

/-- Whether a character is ECMAScript whitespace. -/
def isJsWs (c : Char) : Bool := jsWsList.contains c

/-- Models `String.prototype.trim`: strip ECMAScript whitespace from both ends. -/
def trimChars (l : List Char) : List Char :=
  ((l.dropWhile isJsWs).reverse.dropWhile isJsWs).reverse

/-- Models `buffer.split('\n')` from `parseSSELines`: split a string on every
newline character; always returns at least one (possibly empty) piece. -/
def splitNl : List Char → List (List Char)
  | [] => [[]]
  | c :: rest =>
    if c = '\n' then [] :: splitNl rest
    else
      match splitNl rest with
      | [] => [[c]]
      | l :: ls => (c :: l) :: ls

theorem splitNl_ne_nil (l : List Char) : splitNl l ≠ [] := by
  cases l with
  | nil => simp [splitNl]
  | cons c rest =>
    simp only [splitNl]
    split
    · simp
    · split <;> simp

/-- A thrown JS exception, as seen by `catch` blocks: its `name` and `message`. -/
structure Thrown where
  name : List Char
  message : List Char
deriving DecidableEq, Repr

/-- One observation on the workflow-log side channel (`core.debug` / `core.info`
/ `core.warning` / `core.error`). -/
inductive Log where
  | debug (m : List Char)
  | info (m : List Char)
  | warning (m : List Char)
  | error (m : List Char)
deriving DecidableEq, Repr

/-- A JSON value as produced by `JSON.parse`.  A number is kept as the decimal
mantissa and power-of-ten exponent of the parsed literal (the IEEE-754
rounding JS performs is not modelled; no claim depends on float rounding). -/
inductive Json where
  | null
  | bool (b : Bool)
  | num (mant : Int) (exp : Int)
  | str (s : List Char)
  | arr (elems : List Json)
  | obj (fields : List (List Char × Json))

instance : Inhabited Json := ⟨Json.null⟩

/-- JSON insignificant whitespace (RFC 8259 / `JSON.parse`). -/
def isJsonWs (c : Char) : Bool :=
  c = ' ' || c = '\t' || c = '\n' || c = '\r'

/-- Skip JSON insignificant whitespace. -/
def skipWs (l : List Char) : List Char := l.dropWhile isJsonWs

/-- Whether a character is a hexadecimal digit. -/
def isHexDigitC (c : Char) : Bool :=
  c.isDigit || ('a' ≤ c && c ≤ 'f') || ('A' ≤ c && c ≤ 'F')

/-- Value of a hexadecimal digit. -/
def hexVal (c : Char) : Nat :=
  if c.isDigit then c.toNat - '0'.toNat
  else if 'a' ≤ c then c.toNat - 'a'.toNat + 10
  else c.toNat - 'A'.toNat + 10

/-- Parse the body of a JSON string after the opening quote, returning the
decoded characters and the input after the closing quote.  A lone-surrogate
escape (which JS would keep as a UTF-16 code unit) is replaced by U+0000
since Lean characters are unicode scalar values; no claim exercises this. -/
def parseJStr : List Char → Option (List Char × List Char)
  | [] => none
  | '"' :: rest => some ([], rest)
  | '\\' :: esc =>
    match esc with
    | '"' :: r => (parseJStr r).map (fun p => ('"' :: p.1, p.2))
    | '\\' :: r => (parseJStr r).map (fun p => ('\\' :: p.1, p.2))
    | '/' :: r => (parseJStr r).map (fun p => ('/' :: p.1, p.2))
    | 'b' :: r => (parseJStr r).map (fun p => ('\x08' :: p.1, p.2))
    | 'f' :: r => (parseJStr r).map (fun p => ('\x0c' :: p.1, p.2))
    | 'n' :: r => (parseJStr r).map (fun p => ('\n' :: p.1, p.2))
    | 'r' :: r => (parseJStr r).map (fun p => ('\r' :: p.1, p.2))
    | 't' :: r => (parseJStr r).map (fun p => ('\t' :: p.1, p.2))
    | 'u' :: h1 :: h2 :: h3 :: h4 :: r =>
      if isHexDigitC h1 && isHexDigitC h2 && isHexDigitC h3 && isHexDigitC h4 then
        let code := ((hexVal h1 * 16 + hexVal h2) * 16 + hexVal h3) * 16 + hexVal h4
        (parseJStr r).map (fun p => (Char.ofNat code :: p.1, p.2))
      else none
    | _ => none
  | c :: rest =>
    if c.toNat < 0x20 then none
    else (parseJStr rest).map (fun p => (c :: p.1, p.2))

/-- Digits of a number literal, most significant first, as a natural number. -/
def digitsVal (ds : List Char) : Nat :=
  ds.foldl (fun acc d => acc * 10 + (d.toNat - '0'.toNat)) 0

/-- Split a leading run of decimal digits. -/
def takeDigits (l : List Char) : List Char × List Char :=
  (l.takeWhile Char.isDigit, l.dropWhile Char.isDigit)

/-- Parse a JSON number literal: `-? (0 | [1-9][0-9]*) frac? exp?`, returned
as mantissa and power-of-ten exponent. -/
def parseJNum (l : List Char) : Option (Json × List Char) :=
  let (neg, l1) := match l with
    | '-' :: r => (true, r)
    | _ => (false, l)
  let (intDs, l2) := takeDigits l1
  match intDs with
  | [] => none
  | d0 :: drest =>
    if d0 = '0' ∧ drest ≠ [] then none
    else
      let (fracDs, l3) := match l2 with
        | '.' :: r => takeDigits r
        | _ => ([], l2)
      let fracOk : Bool := match l2 with
        | '.' :: _ => !fracDs.isEmpty
        | _ => true
      let (expVal, expOk, l5) : Int × Bool × List Char := match l3 with
        | 'e' :: r | 'E' :: r =>
          let (esign, r1) : Bool × List Char := match r with
            | '+' :: r2 => (false, r2)
            | '-' :: r2 => (true, r2)
            | _ => (false, r)
          let (expDs, r3) := takeDigits r1
          ((if esign then -(digitsVal expDs : Int) else (digitsVal expDs : Int)),
            !expDs.isEmpty, r3)
        | _ => (0, true, l3)
      if fracOk && expOk then
        let mantNat := digitsVal (intDs ++ fracDs)
        let mant : Int := if neg then -(mantNat : Int) else (mantNat : Int)
        some (Json.num mant (expVal - fracDs.length), l5)
      else none

mutual

/-- Fueled recursive-descent parser for a JSON value, modelling `JSON.parse`. -/
def parseJVal : Nat → List Char → Option (Json × List Char)
  | 0, _ => none
  | fuel + 1, l =>
    match skipWs l with
    | 'n' :: 'u' :: 'l' :: 'l' :: r => some (.null, r)
    | 't' :: 'r' :: 'u' :: 'e' :: r => some (.bool true, r)
    | 'f' :: 'a' :: 'l' :: 's' :: 'e' :: r => some (.bool false, r)
    | '"' :: r => (parseJStr r).map (fun p => (.str p.1, p.2))
    | '[' :: r =>
      (match skipWs r with
       | ']' :: r' => some (.arr [], r')
       | r' =>
         match parseJVal fuel r' with
         | none => none
         | some (x, rest) => parseJArr fuel [x] rest)
    | '{' :: r =>
      (match skipWs r with
       | '}' :: r' => some (.obj [], r')
       | r' => parseJMember fuel [] r')
    | l' => parseJNum l'

/-- Remaining elements of a JSON array after the first. -/
def parseJArr : Nat → List Json → List Char → Option (Json × List Char)
  | 0, _, _ => none
  | fuel + 1, acc, l =>
    match skipWs l with
    | ',' :: r =>
      (match parseJVal fuel r with
       | none => none
       | some (x, rest) => parseJArr fuel (acc ++ [x]) rest)
    | ']' :: r => some (.arr acc, r)
    | _ => none

/-- One member (and any following members) of a JSON object. -/
def parseJMember : Nat → List (List Char × Json) → List Char → Option (Json × List Char)
  | 0, _, _ => none
  | fuel + 1, acc, l =>
    match skipWs l with
    | '"' :: r =>
      (match parseJStr r with
       | none => none
       | some (key, r1) =>
         match skipWs r1 with
         | ':' :: r2 =>
           (match parseJVal fuel r2 with
            | none => none
            | some (v, r3) =>
              match skipWs r3 with
              | ',' :: r4 => parseJMember fuel (acc ++ [(key, v)]) r4
              | '}' :: r4 => some (.obj (acc ++ [(key, v)]), r4)
              | _ => none)
         | _ => none)
    | _ => none

end

/-- Models `JSON.parse(text)`: `none` is a thrown `SyntaxError`. -/
def jsonParse (l : List Char) : Option Json :=
  match parseJVal (l.length + 1) l with
  | some (v, rest) => if skipWs rest = [] then some v else none
  | none => none

/-- ECMAScript ToBoolean on a JSON value: `null`, `false`, zero and the empty
string are falsy; every object and array (even empty) is truthy. -/
def jsTruthy : Json → Bool
  | .null => false
  | .bool b => b
  | .num m _ => m ≠ 0
  | .str s => s ≠ []
  | .arr _ => true
  | .obj _ => true

/-- ToBoolean lifted to an optional value: `undefined` is falsy. -/
def truthyOpt : Option Json → Bool
  | none => false
  | some v => jsTruthy v

/-- Models the JS expression `x || 'Unknown error'` on an optional value:
the value itself when truthy, the fallback string otherwise. -/
def jsOrUnknown (eo : Option Json) : Json :=
  match eo with
  | some v => if jsTruthy v then v else Json.str "Unknown error".toList
  | none => Json.str "Unknown error".toList

/-- Last-wins field lookup: `JSON.parse` keeps the last of duplicate keys. -/
def lookupField (fields : List (List Char × Json)) (k : List Char) : Option Json :=
  (fields.reverse.find? (fun p => p.1 = k)).map (fun p => p.2)

/-- Models the JS property read `v[k]`: reading a property of `null` throws a
`TypeError`; reading an absent property (or any property of a number, string,
boolean or array, for the keys this program uses) yields `undefined`,
modelled as `none`. -/
def jsGetField (v : Json) (k : List Char) : Except Thrown (Option Json) :=
  match v with
  | .null => .error ⟨"TypeError".toList,
      "Cannot read properties of null (reading ".toList ++ k ++ ")".toList⟩
  | .obj fields => .ok (lookupField fields k)
  | _ => .ok none

/-- Total property read used where the receiver is known not to be `null`. -/
def jsGetFieldT (v : Json) (k : List Char) : Option Json :=
  match v with
  | .obj fields => lookupField fields k
  | _ => none

/-- Models `typeof v === 'object'` (true for objects, arrays and `null`). -/
def isObjType : Json → Bool
  | .obj _ => true
  | .arr _ => true
  | .null => true
  | _ => false

/-- Decimal digits of a natural number. -/
def natToChars (n : Nat) : List Char := Nat.toDigits 10 n

/-- Render the mantissa/exponent pair of a parsed number literal back to text.
This is an approximation of `Number.prototype.toString` that agrees with it
on integers and plain short decimals; no claim stringifies other numbers. -/
def renderNum (m e : Int) : List Char :=
  let sign : List Char := if m < 0 then ['-'] else []
  let d := natToChars m.natAbs
  if 0 ≤ e then sign ++ d ++ List.replicate e.toNat '0'
  else
    let k := (-e).toNat
    if d.length ≤ k then sign ++ '0' :: '.' :: (List.replicate (k - d.length) '0' ++ d)
    else sign ++ d.take (d.length - k) ++ '.' :: d.drop (d.length - k)

/-- Fueled ECMAScript ToString on a JSON value (template-literal coercion):
strings are used verbatim, arrays join their elements with commas (with
`null` rendered empty, as `Array.prototype.join` does), and plain objects
render as `[object Object]`. -/
def jsToStringF : Nat → Json → List Char
  | 0, _ => []
  | _ + 1, .null => "null".toList
  | _ + 1, .bool b => if b then "true".toList else "false".toList
  | _ + 1, .num m e => renderNum m e
  | _ + 1, .str s => s
  | fuel + 1, .arr xs =>
    List.intercalate [','] (xs.map (fun x =>
      match x with
      | .null => []
      | y => jsToStringF fuel y))
  | _ + 1, .obj _ => "[object Object]".toList

/-- ECMAScript ToString on a JSON value.  The fuel bounds the nesting depth
of arrays; values nested deeper than 2^20 levels (which `JSON.parse` could
only produce from an astronomically large text) are not rendered faithfully.
Every non-array case is fuel-independent. -/
def jsToString (v : Json) : List Char := jsToStringF 1048576 v

/-- The mutable accumulator of `streamTaskOutput` (interface `StreamState`).
`error` and `costUsd` hold whatever runtime value the code assigned, which
the TypeScript types merely assert to be a string and a number. -/
structure StreamState where
  outputBuffer : List Char
  status : List Char
  error : Option Json
  costUsd : Option Json

/-- The fresh state built at the start of `streamTaskOutput`. -/
def initState : StreamState :=
  ⟨[], "unknown".toList, none, none⟩

/-- The dispatch on a successfully parsed SSE payload (the `switch` statement
of `processSSEEvent`).  Property reads on a `null` payload throw, exactly as
in JS; in that case the partial in-place mutation the JS code performed
before the throw is dropped, which is unobservable because every caller lets
the exception propagate and discards the state. -/
def processParsed (eventType : List Char) (event : Json) (st : StreamState) :
    Except Thrown (StreamState × List Log) :=
  if eventType = "start".toList then
    .ok (st, [Log.info "[Stream] Task execution started".toList])
  else if eventType = "stdout".toList then
    match jsGetField event "data".toList with
    | .error t => .error t
    | .ok d =>
      match d with
      | some v =>
        if jsTruthy v then
          .ok ({ st with outputBuffer := st.outputBuffer ++ jsToString v },
               [Log.info (jsToString v)])
        else .ok (st, [])
      | none => .ok (st, [])
  else if eventType = "stderr".toList then
    match jsGetField event "data".toList with
    | .error t => .error t
    | .ok d =>
      match d with
      | some v =>
        if jsTruthy v then
          .ok (st, [Log.warning ("[stderr] ".toList ++ jsToString v)])
        else .ok (st, [])
      | none => .ok (st, [])
  else if eventType = "complete".toList then
    match jsGetField event "costUsd".toList with
    | .error t => .error t
    | .ok c =>
      .ok ({ st with
              status := "completed".toList,
              costUsd := match c with | some v => some v | none => st.costUsd },
           [Log.info "[Stream] Task completed".toList])
  else if eventType = "error".toList then
    match jsGetField event "error".toList with
    | .error t => .error t
    | .ok eo =>
      .ok ({ st with status := "failed".toList, error := some (jsOrUnknown eo) },
           [Log.error ("[Stream] Task failed: ".toList ++ jsToString (jsOrUnknown eo))])
  else
    .ok (st, [Log.debug ("Unknown event type: ".toList ++ eventType)])

/-- Models `processSSEEvent(eventType, eventData, state)`: parse the payload
as JSON (a parse failure only logs a diagnostic), then dispatch on the event
type. -/
def processSSEEvent (eventType eventData : List Char) (st : StreamState) :
    Except Thrown (StreamState × List Log) :=
  match jsonParse eventData with
  | none => .ok (st, [Log.debug ("Failed to parse SSE data: ".toList ++ eventData)])
  | some event => processParsed eventType event st

/-- The `for` loop of `parseSSELines`: walk the complete lines threading the
pending event type (reset to empty after each dispatched `data:` line). -/
def parseLinesGo : List (List Char) → List Char → StreamState → List Log →
    Except Thrown (StreamState × List Log)
  | [], _, st, logs => .ok (st, logs)
  | line :: rest, evTy, st, logs =>
    if "event: ".toList.isPrefixOf line then
      parseLinesGo rest (trimChars (line.drop 7)) st logs
    else if "data: ".toList.isPrefixOf line then
      match processSSEEvent evTy (line.drop 6) st with
      | .error t => .error t
      | .ok (st', ls) => parseLinesGo rest [] st' (logs ++ ls)
    else parseLinesGo rest evTy st logs

/-- Models `parseSSELines(buffer, state)`: split the buffer on newlines, pop
the trailing (possibly incomplete) piece as the remainder, process every
complete line with a pending event type that starts empty, and return the
updated state, the remainder and the emitted observations. -/
def parseSSELines (buffer : List Char) (st : StreamState) :
    Except Thrown (StreamState × List Char × List Log) :=
  (parseLinesGo ((splitNl buffer).dropLast) [] st []).map
    (fun p => (p.1, (splitNl buffer).getLastD [], p.2))

/-- The decoded event trace of a list of complete lines under a pending event
type: which `(eventType, rawData)` pairs get dispatched, in order. -/
def decodeTrace : List (List Char) → List Char → List (List Char × List Char)
  | [], _ => []
  | line :: rest, evTy =>
    if "event: ".toList.isPrefixOf line then
      decodeTrace rest (trimChars (line.drop 7))
    else if "data: ".toList.isPrefixOf line then
      (evTy, line.drop 6) :: decodeTrace rest []
    else decodeTrace rest evTy

/-- The complete lines of a buffer (everything before the last newline). -/
def completeLines (buffer : List Char) : List (List Char) :=
  (splitNl buffer).dropLast

/-- Fold a decoded event trace through the stream state machine, collecting
observations; the first thrown fault aborts the fold. -/
def foldEvents : List (List Char × List Char) → StreamState →
    Except Thrown (StreamState × List Log)
  | [], st => .ok (st, [])
  | (ty, d) :: rest, st =>
    match processSSEEvent ty d st with
    | .error t => .error t
    | .ok (st', ls) => (foldEvents rest st').map (fun q => (q.1, ls ++ q.2))

/-- The immutable result returned by `streamTaskOutput` (interface
`StreamResult`). -/
structure StreamResult where
  status : List Char
  output : Option (List Char)
  costUsd : Option Json
  error : Option Json

/-- How the response body reader behaves once the listed chunks have been
read: either the stream finishes, or the pending `reader.read()` rejects
(an abort by the timeout timer surfaces here as an `AbortError`). -/
inductive ReadEnd where
  | done
  | rejects (t : Thrown)
deriving DecidableEq, Repr

/-- The observable behaviour of the `fetch` response: status line, body text
(for the non-ok branch), content type, parsed JSON body (for the degraded
branch; `none` models a body `response.json()` cannot parse), and the decoded
text chunks the body reader yields.  Byte-level UTF-8 chunking is abstracted
to text chunks (`TextDecoder` with `stream: true` preserves multi-byte
sequences across boundaries). -/
structure HttpResponse where
  ok : Bool
  status : Nat
  bodyText : List Char
  contentType : List Char
  jsonBody : Option Json
  chunks : List (List Char)
  readEnd : ReadEnd

/-- The outcome of the `fetch` call itself: rejected (network failure or
abort before headers) or a response. -/
inductive FetchResult where
  | rejected (t : Thrown)
  | response (r : HttpResponse)

/-- The `while (true)` read loop of `streamTaskOutput`: append each chunk to
the carry buffer, frame and dispatch it, keep the returned remainder, and
stop as soon as the state reaches a terminal status (checked only between
chunks) or the stream ends. -/
def readLoop : List (List Char) → ReadEnd → List Char → StreamState →
    Except Thrown StreamState
  | [], .done, _, st => .ok st
  | [], .rejects t, _, _ => .error t
  | c :: cs, e, buf, st =>
    match parseSSELines (buf ++ c) st with
    | .error t => .error t
    | .ok (st', rem, _) =>
      if st'.status = "completed".toList ∨ st'.status = "failed".toList then .ok st'
      else readLoop cs e rem st'

/-- Models `haystack.includes(needle)`: whether `sub` occurs contiguously in
`l`. -/
def containsSub (sub : List Char) : List Char → Bool
  | [] => sub.isEmpty
  | c :: t => sub.isPrefixOf (c :: t) || containsSub sub t

/-- The timeout message `streamTaskOutput` builds when the abort is observed. -/
def timeoutMessage (timeoutMs : Nat) : List Char :=
  "Task execution exceeded timeout (".toList ++ natToChars timeoutMs ++ "ms)".toList

/-- The degraded (non-streaming) branch of `streamTaskOutput`: when the
response is JSON-typed, parse the single body object; a truthy `error` field
(its `.message` when it is an object) short-circuits to a failed result;
otherwise the caller falls through to the read loop (`none`). -/
def degradedBranch (r : HttpResponse) : Except Thrown (Option StreamResult) :=
  if containsSub "application/json".toList r.contentType then
    match r.jsonBody with
    | none => .error ⟨"SyntaxError".toList, "Unexpected token in JSON".toList⟩
    | some j =>
      match jsGetField j "error".toList with
      | .error t => .error t
      | .ok eo =>
        match eo with
        | some ev =>
          if jsTruthy ev then
            .ok (some ⟨"failed".toList, none, none,
              some (jsOrUnknown (if isObjType ev then jsGetFieldT ev "message".toList
                                 else some ev))⟩)
          else .ok none
        | none => .ok none
  else .ok none

/-- The `try` body of `streamTaskOutput`: non-ok responses throw; the JSON
degraded branch may short-circuit; otherwise the read loop runs and the
final state is frozen into a `StreamResult` (empty output becomes
`undefined`). -/
def streamBody (fr : FetchResult) : Except Thrown StreamResult :=
  match fr with
  | .rejected t => .error t
  | .response r =>
    if ¬ r.ok then
      .error ⟨"Error".toList,
        "SSE connection failed (".toList ++ natToChars r.status ++ "): ".toList ++ r.bodyText⟩
    else
      match degradedBranch r with
      | .error t => .error t
      | .ok (some res) => .ok res
      | .ok none =>
        (readLoop r.chunks r.readEnd [] initState).map (fun st =>
          ⟨st.status,
           if st.outputBuffer = [] then none else some st.outputBuffer,
           st.costUsd, st.error⟩)

/-- Models `streamTaskOutput(url, apiKey, timeoutMs)` as a function of the
transport's observable behaviour: the `catch` block translates an observed
`AbortError` (the timeout timer aborting the in-flight operation) into a
`timeout` result and rethrows every other fault. -/
def streamTaskOutput (timeoutMs : Nat) (fr : FetchResult) : Except Thrown StreamResult :=
  match streamBody fr with
  | .ok res => .ok res
  | .error t =>
    if t.name = "AbortError".toList then
      .ok ⟨"timeout".toList, none, none, some (Json.str (timeoutMessage timeoutMs))⟩
    else .error t

/-- The replacement text of the bearer-token redaction. -/
def bearerMask : List Char := "Bearer ***".toList

/-- One attempted match of the regex `Bearer` + whitespace-run + nonspace-run
(case-insensitive) at the head of the input; on success returns the input
after the matched span. -/
def matchBearer : List Char → Option (List Char)
  | b0 :: b1 :: b2 :: b3 :: b4 :: b5 :: rest =>
    if [b0, b1, b2, b3, b4, b5].map Char.toLower = "bearer".toList then
      if rest.takeWhile isJsWs ≠ [] ∧ rest.dropWhile isJsWs ≠ [] then
        some ((rest.dropWhile isJsWs).dropWhile (fun c => !isJsWs c))
      else none
    else none
  | _ => none

/-- Dropping a satisfying prefix never lengthens a list. -/
theorem length_dropWhile_le (p : Char → Bool) (l : List Char) :
    (l.dropWhile p).length ≤ l.length := by
  induction l with
  | nil => simp
  | cons c t ih =>
    rw [List.dropWhile_cons]
    split
    · exact Nat.le_succ_of_le ih
    · simp

/-- A successful bearer match consumes at least one character. -/
theorem matchBearer_length {l rem : List Char} (h : matchBearer l = some rem) :
    rem.length < l.length := by
  match l, h with
  | b0 :: b1 :: b2 :: b3 :: b4 :: b5 :: rest, h =>
    simp only [matchBearer] at h
    split at h
    · split at h
      · injection h with h
        subst h
        have h1 : ((rest.dropWhile isJsWs).dropWhile (fun c => !isJsWs c)).length
            ≤ (rest.dropWhile isJsWs).length := length_dropWhile_le _ _
        have h2 : (rest.dropWhile isJsWs).length ≤ rest.length := length_dropWhile_le _ _
        simp only [List.length_cons]
        omega
      · exact absurd h (by simp)
    · exact absurd h (by simp)

/-- Fueled left-to-right global replacement: at each position either replace
a bearer match and continue after it, or keep the character.  The fuel is
only a structural-recursion device; `length l + 1` always suffices. -/
def sanitizeFuel : Nat → List Char → List Char
  | 0, l => l
  | _ + 1, [] => []
  | fuel + 1, c :: rest =>
    match matchBearer (c :: rest) with
    | some rem => bearerMask ++ sanitizeFuel fuel rem
    | none => c :: sanitizeFuel fuel rest

/-- Models `message.replace(/Bearer\s+[^\s]+/gi, 'Bearer ***')`: replace
every occurrence of `Bearer` followed by whitespace and a run of nonspace
characters (case-insensitively) with the fixed mask, scanning left to right
without overlap. -/
def sanitizeChars (l : List Char) : List Char := sanitizeFuel (l.length + 1) l

/-- The fuel is irrelevant as soon as it exceeds the input length. -/
theorem sanitizeFuel_irrel : ∀ (f g : Nat) (l : List Char),
    l.length < f → l.length < g → sanitizeFuel f l = sanitizeFuel g l := by
  intro f
  induction f with
  | zero => intro g l hf; omega
  | succ f ihf =>
    intro g l hf hg
    cases g with
    | zero => omega
    | succ g =>
      cases l with
      | nil => rfl
      | cons c rest =>
        simp only [List.length_cons] at hf hg
        simp only [sanitizeFuel]
        cases hm : matchBearer (c :: rest) with
        | some rem =>
          have hlt := matchBearer_length hm
          simp only [List.length_cons] at hlt
          show bearerMask ++ sanitizeFuel f rem = bearerMask ++ sanitizeFuel g rem
          rw [ihf g rem (by omega) (by omega)]
        | none =>
          show c :: sanitizeFuel f rest = c :: sanitizeFuel g rest
          rw [ihf g rest (by omega) (by omega)]

/-- Unfolding equation of the sanitizer on a nonempty input. -/
theorem sanitizeChars_cons (c : Char) (rest : List Char) :
    sanitizeChars (c :: rest)
      = match matchBearer (c :: rest) with
        | some rem => bearerMask ++ sanitizeChars rem
        | none => c :: sanitizeChars rest := by
  show sanitizeFuel (rest.length + 2) (c :: rest) = _
  simp only [sanitizeFuel]
  cases hm : matchBearer (c :: rest) with
  | some rem =>
    have hlt := matchBearer_length hm
    simp only []
    rw [sanitizeFuel_irrel (rest.length + 1) (rem.length + 1) rem
      (by simp at hlt; omega) (by omega)]
    rfl
  | none => rfl

@[simp]
theorem sanitizeChars_nil : sanitizeChars [] = [] := rfl

/-- No ECMAScript whitespace character lowercases to `b`. -/
theorem ws_not_b {c : Char} (h : isJsWs c = true) : Char.toLower c ≠ 'b' := by
  have hall : ∀ x ∈ jsWsList, Char.toLower x ≠ 'b' := by decide
  exact hall c (by simpa [isJsWs] using h)

/-- A bearer match starts with a character lowercasing to `b`. -/
theorem bearer_head {v rem : List Char} (h : matchBearer v = some rem) :
    ∃ c t, v = c :: t ∧ Char.toLower c = 'b' := by
  match v, h with
  | b0 :: b1 :: b2 :: b3 :: b4 :: b5 :: rest, h =>
    simp only [matchBearer] at h
    split at h
    · next hp =>
      rw [List.map_cons,
        show "bearer".toList = ['b', 'e', 'a', 'r', 'e', 'r'] from by decide] at hp
      exact ⟨b0, _, rfl, (List.cons.injEq _ _ _ _ ▸ hp).1⟩
    · exact absurd h (by simp)

/-- A head character not lowercasing to `b` rules out a head match. -/
theorem not_b_head_none {c : Char} (t : List Char) (h : Char.toLower c ≠ 'b') :
    matchBearer (c :: t) = none := by
  rcases t with _ | ⟨x1, t⟩
  · rfl
  rcases t with _ | ⟨x2, t⟩
  · rfl
  rcases t with _ | ⟨x3, t⟩
  · rfl
  rcases t with _ | ⟨x4, t⟩
  · rfl
  rcases t with _ | ⟨x5, t⟩
  · rfl
  simp only [matchBearer]
  rw [if_neg]
  intro heq
  rw [List.map_cons,
    show "bearer".toList = ['b', 'e', 'a', 'r', 'e', 'r'] from by decide] at heq
  exact h (List.cons.injEq _ _ _ _ ▸ heq).1

/-- A whitespace head rules out a head match. -/
theorem ws_head_none {c : Char} (t : List Char) (h : isJsWs c = true) :
    matchBearer (c :: t) = none :=
  not_b_head_none t (ws_not_b h)

/-- Either everything satisfies `p`, or `dropWhile` exposes a failing head. -/
theorem dropWhile_shape (p : Char → Bool) (l : List Char) :
    l.dropWhile p = [] ∨ ∃ x y, l.dropWhile p = x :: y ∧ p x = false := by
  cases hd : l.dropWhile p with
  | nil => exact Or.inl rfl
  | cons x y =>
    refine Or.inr ⟨x, y, rfl, ?_⟩
    have := List.head_dropWhile_not p l (by simp [hd])
    simpa [hd] using this

/-- Being empty or headed by a whitespace character. -/
def wsOrNil (m : List Char) : Prop :=
  m = [] ∨ ∃ w t, m = w :: t ∧ isJsWs w = true

/-- The tail a bearer match leaves behind is empty or whitespace-headed. -/
theorem matchBearer_rem_shape {l rem : List Char} (h : matchBearer l = some rem) :
    wsOrNil rem := by
  match l, h with
  | b0 :: b1 :: b2 :: b3 :: b4 :: b5 :: rest, h =>
    simp only [matchBearer] at h
    split at h
    · split at h
      · injection h with h
        subst h
        rcases dropWhile_shape (fun c => !isJsWs c) (rest.dropWhile isJsWs) with
          hd | ⟨x, y, hd, hx⟩
        · exact Or.inl hd
        · exact Or.inr ⟨x, y, hd, by simpa using hx⟩
      · exact absurd h (by simp)
    · exact absurd h (by simp)

/-- The sanitizer walks over a whitespace head unchanged. -/
theorem sanitize_ws_head {c : Char} (t : List Char) (h : isJsWs c = true) :
    sanitizeChars (c :: t) = c :: sanitizeChars t := by
  rw [sanitizeChars_cons, ws_head_none t h]

/-- Sanitizing preserves being empty-or-whitespace-headed. -/
theorem sanitize_wsOrNil {m : List Char} (h : wsOrNil m) : wsOrNil (sanitizeChars m) := by
  rcases h with rfl | ⟨w, t, rfl, hw⟩
  · exact Or.inl (by simp)
  · exact Or.inr ⟨w, sanitizeChars t, sanitize_ws_head t hw, hw⟩

/-- The mask itself, followed by an empty-or-whitespace-headed tail, matches
the bearer pattern and consumes exactly the mask. -/
theorem matchBearer_mask {m : List Char} (h : wsOrNil m) :
    matchBearer (bearerMask ++ m) = some m := by
  rw [show bearerMask ++ m
      = 'B' :: 'e' :: 'a' :: 'r' :: 'e' :: 'r' :: ' ' :: '*' :: '*' :: '*' :: m from rfl]
  simp only [matchBearer]
  rw [if_pos (by decide)]
  have hdropws : List.dropWhile isJsWs (' ' :: '*' :: '*' :: '*' :: m)
      = '*' :: '*' :: '*' :: m := by
    rw [List.dropWhile_cons, if_pos (by decide), List.dropWhile_cons, if_neg (by decide)]
  rw [if_pos]
  · rw [hdropws]
    rw [List.dropWhile_cons, if_pos (by decide), List.dropWhile_cons, if_pos (by decide),
      List.dropWhile_cons, if_pos (by decide)]
    rcases h with rfl | ⟨w, t, rfl, hw⟩
    · rfl
    · rw [List.dropWhile_cons, if_neg (by simp [hw])]
  · constructor
    · rw [List.takeWhile_cons, if_pos (by decide)]
      simp
    · rw [hdropws]
      simp

/-- Decomposition of a sanitizer run: either nothing was replaced, or the
output splits as an untouched prefix, the mask, and a sanitized tail. -/
theorem sanitize_decomp : ∀ l : List Char,
    sanitizeChars l = l ∨
    ∃ u v rem, l = u ++ v ∧ matchBearer v = some rem ∧
      sanitizeChars l = u ++ (bearerMask ++ sanitizeChars rem) := by
  have H : ∀ n, ∀ l : List Char, l.length ≤ n →
      sanitizeChars l = l ∨
      ∃ u v rem, l = u ++ v ∧ matchBearer v = some rem ∧
        sanitizeChars l = u ++ (bearerMask ++ sanitizeChars rem) := by
    intro n
    induction n with
    | zero =>
      intro l hl
      have : l = [] := List.length_eq_zero.mp (Nat.le_zero.mp hl)
      subst this
      exact Or.inl (by simp)
    | succ n ih =>
      intro l hl
      cases l with
      | nil => exact Or.inl (by simp)
      | cons c rest =>
        rw [sanitizeChars_cons]
        cases hm : matchBearer (c :: rest) with
        | some rem =>
          exact Or.inr ⟨[], c :: rest, rem, by simp, hm, by simp⟩
        | none =>
          simp only [List.length_cons] at hl
          rcases ih rest (by omega) with h1 | ⟨u, v, rem, hv, hmv, hs⟩
          · refine Or.inl ?_
            show c :: sanitizeChars rest = c :: rest
            rw [h1]
          · refine Or.inr ⟨c :: u, v, rem, by rw [hv, List.cons_append], hmv, ?_⟩
            show c :: sanitizeChars rest = (c :: u) ++ (bearerMask ++ sanitizeChars rem)
            rw [hs, List.cons_append]
  exact fun l => H l.length l le_rfl

/-- Auxiliary to `no_new_head_match`: when the untouched prefix keeps the
first six characters intact, a replacement further out cannot create a match
at the head. -/
theorem no_new_head_match_deep {c a1 a2 a3 a4 a5 : Char} {u v w rem : List Char}
    (hmv : matchBearer v = some rem)
    (h : matchBearer (c :: a1 :: a2 :: a3 :: a4 :: a5 :: (u ++ v)) = none) :
    matchBearer (c :: a1 :: a2 :: a3 :: a4 :: a5 :: (u ++ (bearerMask ++ w))) = none := by
  simp only [matchBearer] at h ⊢
  by_cases hbear : List.map Char.toLower [c, a1, a2, a3, a4, a5] = "bearer".toList
  · rw [if_pos hbear] at h ⊢
    obtain ⟨v0, t', hv0, hlow⟩ := bearer_head hmv
    have hv0ws : isJsWs v0 = false := by
      cases hws : isJsWs v0 with
      | false => rfl
      | true => exact absurd hlow (ws_not_b hws)
    cases u with
    | nil =>
      rw [if_neg]
      intro hand
      exact hand.1 (by
        rw [show ([] : List Char) ++ (bearerMask ++ w)
            = 'B' :: 'e' :: 'a' :: 'r' :: 'e' :: 'r' :: ' ' :: '*' :: '*' :: '*' :: w from rfl]
        rw [List.takeWhile_cons, if_neg (by decide)])
    | cons d u' =>
      by_cases hd : isJsWs d = true
      · exfalso
        rw [List.cons_append] at h
        split at h
        · simp at h
        · next hcond2 =>
          apply hcond2
          constructor
          · rw [List.takeWhile_cons, if_pos hd]
            simp
          · rw [List.dropWhile_cons, if_pos hd]
            intro hnil
            have hall := List.dropWhile_eq_nil_iff.mp hnil
            have hv0mem : v0 ∈ u' ++ v := by
              rw [hv0]
              exact List.mem_append_right _ (List.mem_cons_self _ _)
            have := hall v0 hv0mem
            rw [this] at hv0ws
            exact Bool.noConfusion hv0ws
      · rw [List.cons_append]
        rw [if_neg]
        intro hand
        exact hand.1 (by rw [List.takeWhile_cons, if_neg (by simp [hd])])
  · rw [if_neg hbear] at h ⊢

/-- Sanitizing the tail of a string cannot create a bearer match at the head
where none existed. -/
theorem no_new_head_match {c : Char} {rest : List Char}
    (h : matchBearer (c :: rest) = none) :
    matchBearer (c :: sanitizeChars rest) = none := by
  rcases sanitize_decomp rest with hs | ⟨u, v, rem, hv, hmv, hs⟩
  · rw [hs]
    exact h
  · rw [hs]
    subst hv
    rcases u with _ | ⟨a1, u⟩
    · rw [List.nil_append,
        show bearerMask ++ sanitizeChars rem
          = 'B' :: 'e' :: 'a' :: 'r' :: 'e' :: 'r' :: ' ' :: '*' :: '*' :: '*'
            :: sanitizeChars rem from rfl]
      simp only [matchBearer]
      rw [if_neg]
      intro heq
      injection heq with h0 heq
      injection heq with h1 heq
      exact absurd h1 (by decide)
    rcases u with _ | ⟨a2, u⟩
    · rw [List.cons_append, List.nil_append,
        show bearerMask ++ sanitizeChars rem
          = 'B' :: 'e' :: 'a' :: 'r' :: 'e' :: 'r' :: ' ' :: '*' :: '*' :: '*'
            :: sanitizeChars rem from rfl]
      simp only [matchBearer]
      rw [if_neg]
      intro heq
      injection heq with h0 heq
      injection heq with h1 heq
      injection heq with h2 heq
      exact absurd h2 (by decide)
    rcases u with _ | ⟨a3, u⟩
    · rw [List.cons_append, List.cons_append, List.nil_append,
        show bearerMask ++ sanitizeChars rem
          = 'B' :: 'e' :: 'a' :: 'r' :: 'e' :: 'r' :: ' ' :: '*' :: '*' :: '*'
            :: sanitizeChars rem from rfl]
      simp only [matchBearer]
      rw [if_neg]
      intro heq
      injection heq with h0 heq
      injection heq with h1 heq
      injection heq with h2 heq
      injection heq with h3 heq
      exact absurd h3 (by decide)
    rcases u with _ | ⟨a4, u⟩
    · rw [List.cons_append, List.cons_append, List.cons_append, List.nil_append,
        show bearerMask ++ sanitizeChars rem
          = 'B' :: 'e' :: 'a' :: 'r' :: 'e' :: 'r' :: ' ' :: '*' :: '*' :: '*'
            :: sanitizeChars rem from rfl]
      simp only [matchBearer]
      rw [if_neg]
      intro heq
      injection heq with h0 heq
      injection heq with h1 heq
      injection heq with h2 heq
      injection heq with h3 heq
      injection heq with h4 heq
      exact absurd h4 (by decide)
    rcases u with _ | ⟨a5, u⟩
    · rw [List.cons_append, List.cons_append, List.cons_append, List.cons_append,
        List.nil_append,
        show bearerMask ++ sanitizeChars rem
          = 'B' :: 'e' :: 'a' :: 'r' :: 'e' :: 'r' :: ' ' :: '*' :: '*' :: '*'
            :: sanitizeChars rem from rfl]
      simp only [matchBearer]
      rw [if_neg]
      intro heq
      injection heq with h0 heq
      injection heq with h1 heq
      injection heq with h2 heq
      injection heq with h3 heq
      injection heq with h4 heq
      injection heq with h5 heq
      exact absurd h5 (by decide)
    · simp only [List.cons_append] at h ⊢
      exact no_new_head_match_deep hmv h

/-- Every bearer-pattern occurrence in `l` is exactly the literal mask
`Bearer ***`: no credential material survives. -/
def leakFree (l : List Char) : Prop :=
  ∀ i rem, matchBearer (l.drop i) = some rem → l.drop i = bearerMask ++ rem

theorem leakFree_nil : leakFree [] := by
  intro i rem h
  rw [List.drop_nil] at h
  simp [matchBearer] at h

theorem leakFree_tail {c : Char} {t : List Char} (h : leakFree (c :: t)) : leakFree t := by
  intro i rem hm
  have := h (i + 1) rem (by rwa [List.drop_succ_cons])
  rwa [List.drop_succ_cons] at this

theorem leakFree_cons {c : Char} {t : List Char}
    (h0 : matchBearer (c :: t) = none) (h : leakFree t) : leakFree (c :: t) := by
  intro i rem hm
  cases i with
  | zero =>
    rw [List.drop_zero] at hm
    rw [h0] at hm
    exact absurd hm (by simp)
  | succ i =>
    rw [List.drop_succ_cons] at hm ⊢
    exact h i rem hm

/-- Prepending characters that cannot start a bearer literal preserves
leak-freedom. -/
theorem leakFree_no_b_prefix : ∀ (pre : List Char),
    (∀ c ∈ pre, Char.toLower c ≠ 'b') →
    ∀ m, leakFree m → leakFree (pre ++ m) := by
  intro pre
  induction pre with
  | nil =>
    intro _ m h
    simpa using h
  | cons c pre ih =>
    intro hpre m h
    rw [List.cons_append]
    exact leakFree_cons (not_b_head_none _ (hpre c (List.mem_cons_self _ _)))
      (ih (fun x hx => hpre x (List.mem_cons_of_mem _ hx)) m h)

/-- The mask followed by a leak-free, whitespace-or-empty tail is leak-free. -/
theorem leakFree_mask {m : List Char} (hsh : wsOrNil m) (h : leakFree m) :
    leakFree (bearerMask ++ m) := by
  intro i rem hm
  cases i with
  | zero =>
    rw [List.drop_zero] at hm ⊢
    rw [matchBearer_mask hsh] at hm
    injection hm with hm
    rw [hm]
  | succ j =>
    have htl : leakFree (('e' :: 'a' :: 'r' :: 'e' :: 'r' :: ' ' :: '*' :: '*' :: '*' :: []) ++ m) :=
      leakFree_no_b_prefix _ (by decide) m h
    have hdrop : List.drop (j + 1) (bearerMask ++ m)
        = List.drop j (('e' :: 'a' :: 'r' :: 'e' :: 'r' :: ' ' :: '*' :: '*' :: '*' :: []) ++ m) := rfl
    rw [hdrop] at hm ⊢
    exact htl j rem hm

/-- The sanitizer output never contains a bearer occurrence other than the
literal mask. -/
theorem leakFree_sanitize : ∀ l : List Char, leakFree (sanitizeChars l) := by
  have H : ∀ n, ∀ l : List Char, l.length ≤ n → leakFree (sanitizeChars l) := by
    intro n
    induction n with
    | zero =>
      intro l hl
      have : l = [] := List.length_eq_zero.mp (Nat.le_zero.mp hl)
      subst this
      simpa using leakFree_nil
    | succ n ih =>
      intro l hl
      cases l with
      | nil => simpa using leakFree_nil
      | cons c rest =>
        rw [sanitizeChars_cons]
        cases hm : matchBearer (c :: rest) with
        | some rem =>
          have hlen := matchBearer_length hm
          simp only [List.length_cons] at hl hlen
          have hrem : leakFree (sanitizeChars rem) := ih rem (by omega)
          exact leakFree_mask (sanitize_wsOrNil (matchBearer_rem_shape hm)) hrem
        | none =>
          simp only [List.length_cons] at hl
          have hrest : leakFree (sanitizeChars rest) := ih rest (by omega)
          exact leakFree_cons (no_new_head_match hm) hrest
  exact fun l => H l.length l le_rfl

/-- A leak-free string is a fixed point of the sanitizer. -/
theorem sanitize_of_leakFree : ∀ l : List Char, leakFree l → sanitizeChars l = l := by
  have H : ∀ n, ∀ l : List Char, l.length ≤ n → leakFree l → sanitizeChars l = l := by
    intro n
    induction n with
    | zero =>
      intro l hl _
      have : l = [] := List.length_eq_zero.mp (Nat.le_zero.mp hl)
      subst this
      simp
    | succ n ih =>
      intro l hl hlf
      cases l with
      | nil => simp
      | cons c rest =>
        rw [sanitizeChars_cons]
        cases hm : matchBearer (c :: rest) with
        | some rem =>
          have h0 := hlf 0 rem (by rwa [List.drop_zero])
          rw [List.drop_zero] at h0
          show bearerMask ++ sanitizeChars rem = c :: rest
          have hlf' : leakFree (bearerMask ++ rem) := h0 ▸ hlf
          have hrem_lf : leakFree rem := by
            intro i r hr
            have heq : List.drop (i + 10) (bearerMask ++ rem) = List.drop i rem := rfl
            have := hlf' (i + 10) r (by rwa [heq])
            rwa [heq] at this
          have hlen := matchBearer_length hm
          simp only [List.length_cons] at hl hlen
          rw [ih rem (by omega) hrem_lf]
          exact h0.symm
        | none =>
          show c :: sanitizeChars rest = c :: rest
          simp only [List.length_cons] at hl
          rw [ih rest (by omega) (leakFree_tail hlf)]
  exact fun l => H l.length l le_rfl

/-- The sanitizer is idempotent. -/
theorem sanitize_idem (l : List Char) :
    sanitizeChars (sanitizeChars l) = sanitizeChars l :=
  sanitize_of_leakFree _ (leakFree_sanitize l)

/-- Whether the bearer pattern occurs anywhere in the string. -/
def hasPattern : List Char → Bool
  | [] => false
  | c :: t => (matchBearer (c :: t)).isSome || hasPattern t

theorem leakFree_of_no_pattern : ∀ {l : List Char}, hasPattern l = false → leakFree l := by
  intro l
  induction l with
  | nil => exact fun _ => leakFree_nil
  | cons c t ih =>
    intro h
    simp only [hasPattern, Bool.or_eq_false_iff] at h
    obtain ⟨h1, h2⟩ := h
    refine leakFree_cons ?_ (ih h2)
    cases hm : matchBearer (c :: t) with
    | none => rfl
    | some r =>
      rw [hm] at h1
      exact absurd h1 (by simp)

/-- A string without the pattern is returned unchanged. -/
theorem sanitize_no_pattern {l : List Char} (h : hasPattern l = false) :
    sanitizeChars l = l :=
  sanitize_of_leakFree l (leakFree_of_no_pattern h)

/-- The `catch` branch of `run` (lines 127-131 of main.ts): the thrown
message passes through the sanitizer before `core.setFailed`. -/
def surfaceThrown (t : Thrown) : List Char := sanitizeChars t.message

/-- The failed-status branch of `run` (lines 122-126 of main.ts): the text
handed to `core.setFailed` when the stream result reports failure, built
without any sanitizing. -/
def surfaceFailedResult (res : StreamResult) : Option (List Char) :=
  if res.status = "failed".toList then
    some ("Task execution failed: ".toList ++
      (match res.error with
       | some v => if jsTruthy v then jsToString v else "Unknown error".toList
       | none => "Unknown error".toList))
  else none

/-- Unfolding equation of `splitNl` on a nonempty buffer. -/
theorem splitNl_cons (c : Char) (x : List Char) :
    splitNl (c :: x)
      = if c = '\n' then [] :: splitNl x
        else match splitNl x with | [] => [[c]] | l :: ls => (c :: l) :: ls := rfl

/-- A buffer without newlines splits into a single piece. -/
theorem splitNl_no_newline {l : List Char} (h : '\n' ∉ l) : splitNl l = [l] := by
  induction l with
  | nil => rfl
  | cons c rest ih =>
    rw [splitNl_cons, if_neg (by intro hc; exact h (hc ▸ List.mem_cons_self _ _))]
    rw [ih (fun hm => h (List.mem_cons_of_mem _ hm))]

/-- Splitting around an explicit newline: the pieces of the left part come
first, followed by the pieces of the right part. -/
theorem splitNl_append (a b : List Char) :
    ∃ ls, splitNl (a ++ '\n' :: b) = ls ++ splitNl b ∧ ls ≠ [] := by
  induction a with
  | nil =>
    refine ⟨[[]], ?_, by simp⟩
    rw [List.nil_append, splitNl_cons, if_pos rfl]
    rfl
  | cons c a ih =>
    obtain ⟨ls, hls, hne⟩ := ih
    by_cases hc : c = '\n'
    · subst hc
      refine ⟨[] :: ls, ?_, by simp⟩
      rw [List.cons_append, splitNl_cons, if_pos rfl, hls]
      rfl
    · cases ls with
      | nil => exact absurd rfl hne
      | cons x ls' =>
        refine ⟨(c :: x) :: ls', ?_, by simp⟩
        rw [List.cons_append, splitNl_cons, if_neg hc, hls]
        rfl

/-- `getLastD` looks only at the nonempty right part of an append. -/
theorem getLastD_append_right {ls l2 : List (List Char)} (h : l2 ≠ []) :
    (ls ++ l2).getLastD [] = l2.getLastD [] := by
  rw [List.getLastD_eq_getLast?, List.getLastD_eq_getLast?, List.getLast?_append]
  cases hl : l2.getLast? with
  | none => exact absurd (List.getLast?_eq_none_iff.mp hl) h
  | some v => simp

/-- The `for` loop of `parseSSELines` computes the fold of the decoded event
trace, with the observations accumulated on the right. -/
theorem parseLinesGo_eq_trace : ∀ (lines : List (List Char)) (evTy : List Char)
    (st : StreamState) (logs : List Log),
    parseLinesGo lines evTy st logs
      = (foldEvents (decodeTrace lines evTy) st).map (fun p => (p.1, logs ++ p.2)) := by
  intro lines
  induction lines with
  | nil =>
    intro evTy st logs
    simp [parseLinesGo, decodeTrace, foldEvents, Except.map]
  | cons line rest ih =>
    intro evTy st logs
    by_cases h1 : "event: ".toList.isPrefixOf line = true
    · simp only [parseLinesGo, decodeTrace, if_pos h1]
      exact ih _ st logs
    · by_cases h2 : "data: ".toList.isPrefixOf line = true
      · simp only [parseLinesGo, decodeTrace, if_neg h1, if_pos h2, foldEvents]
        cases hp : processSSEEvent evTy (line.drop 6) st with
        | error t => rfl
        | ok p =>
          obtain ⟨st', ls⟩ := p
          show parseLinesGo rest [] st' (logs ++ ls)
            = Except.map (fun p => (p.1, logs ++ p.2))
                (Except.map (fun q => (q.1, ls ++ q.2)) (foldEvents (decodeTrace rest []) st'))
          rw [ih [] st' (logs ++ ls)]
          cases hf : foldEvents (decodeTrace rest []) st' with
          | error t => rfl
          | ok q => simp [Except.map]
      · simp only [parseLinesGo, decodeTrace, if_neg h1, if_neg h2]
        exact ih _ st logs

/-- `parseSSELines` in terms of the decoded trace of its complete lines and
the trailing piece of the newline split. -/
theorem parseSSELines_eq (buffer : List Char) (st : StreamState) :
    parseSSELines buffer st
      = (foldEvents (decodeTrace (completeLines buffer) []) st).map
          (fun p => (p.1, (splitNl buffer).getLastD [], p.2)) := by
  unfold parseSSELines completeLines
  rw [parseLinesGo_eq_trace]
  cases hf : foldEvents (decodeTrace ((splitNl buffer).dropLast) []) st with
  | error t => rfl
  | ok q => simp [Except.map]

/-- The trailing piece of the split is the text after the last newline. -/
theorem splitNl_last_of_append {a b : List Char} (h : '\n' ∉ b) :
    (splitNl (a ++ '\n' :: b)).getLastD [] = b := by
  obtain ⟨ls, hls, hne⟩ := splitNl_append a b
  rw [hls, getLastD_append_right (splitNl_ne_nil b), splitNl_no_newline h]
  rfl

/-- An `event:` line is recognized by the decoder. -/
theorem isPrefixOf_event_self (t : List Char) :
    "event: ".toList.isPrefixOf ("event: ".toList ++ t) = true := by
  rw [List.isPrefixOf_iff_prefix]
  exact List.prefix_append _ _

/-- A `data:` line is recognized by the decoder. -/
theorem isPrefixOf_data_self (d : List Char) :
    "data: ".toList.isPrefixOf ("data: ".toList ++ d) = true := by
  rw [List.isPrefixOf_iff_prefix]
  exact List.prefix_append _ _

/-- A `data:` line is not an `event:` line. -/
theorem not_event_prefix_data (d : List Char) :
    "event: ".toList.isPrefixOf ("data: ".toList ++ d) = false := by
  rw [show "data: ".toList ++ d = 'd' :: 'a' :: 't' :: 'a' :: ':' :: ' ' :: d from rfl]
  simp only [List.isPrefixOf]
  rw [show (('e' == 'd') : Bool) = false from by decide]
  simp

/-- An `event:` line is not a `data:` line. -/
theorem not_data_prefix_event (t : List Char) :
    "data: ".toList.isPrefixOf ("event: ".toList ++ t) = false := by
  rw [show "event: ".toList ++ t = 'e' :: 'v' :: 'e' :: 'n' :: 't' :: ':' :: ' ' :: t from rfl]
  simp only [List.isPrefixOf]
  rw [show (('d' == 'e') : Bool) = false from by decide]
  simp

/-- Decoder step on an `event:` line: set the trimmed pending type, no
dispatch. -/
theorem decodeTrace_event (t : List Char) (rest : List (List Char)) (p : List Char) :
    decodeTrace (("event: ".toList ++ t) :: rest) p = decodeTrace rest (trimChars t) := by
  simp only [decodeTrace]
  rw [if_pos (isPrefixOf_event_self t)]
  rw [show ("event: ".toList ++ t).drop 7 = t from rfl]

/-- Decoder step on a `data:` line: dispatch the payload with the pending
type, then clear it. -/
theorem decodeTrace_data (d : List Char) (rest : List (List Char)) (p : List Char) :
    decodeTrace (("data: ".toList ++ d) :: rest) p
      = (p, d) :: decodeTrace rest [] := by
  simp only [decodeTrace]
  rw [if_neg (by rw [not_event_prefix_data]; simp), if_pos (isPrefixOf_data_self d)]
  rw [show ("data: ".toList ++ d).drop 6 = d from rfl]

/-- Decoder step on an unrecognized line: skip it, keep the pending type. -/
theorem decodeTrace_skip {line : List Char} (rest : List (List Char)) (p : List Char)
    (h1 : "event: ".toList.isPrefixOf line = false)
    (h2 : "data: ".toList.isPrefixOf line = false) :
    decodeTrace (line :: rest) p = decodeTrace rest p := by
  simp only [decodeTrace]
  rw [if_neg (by rw [h1]; simp), if_neg (by rw [h2]; simp)]

/-- Unrecognized lines ahead of the trace contribute nothing. -/
theorem decodeTrace_skip_prefix : ∀ (pre : List (List Char)) (rest : List (List Char))
    (p : List Char),
    (∀ l ∈ pre, "event: ".toList.isPrefixOf l = false ∧ "data: ".toList.isPrefixOf l = false) →
    decodeTrace (pre ++ rest) p = decodeTrace rest p := by
  intro pre
  induction pre with
  | nil => intro rest p _; rfl
  | cons line pre ih =>
    intro rest p hall
    rw [List.cons_append,
      decodeTrace_skip _ p (hall line (List.mem_cons_self _ _)).1
        (hall line (List.mem_cons_self _ _)).2]
    exact ih rest p (fun l hl => hall l (List.mem_cons_of_mem _ hl))

/-- The total property read agrees with the throwing one on success. -/
theorem jsGetFieldT_eq {ev : Json} {k : List Char} {c : Option Json}
    (h : jsGetField ev k = .ok c) : jsGetFieldT ev k = c := by
  cases ev <;> injection h

/-- The value of `x || 'Unknown error'` is always truthy. -/
theorem jsOrUnknown_truthy (eo : Option Json) : jsTruthy (jsOrUnknown eo) = true := by
  cases eo with
  | none => decide
  | some v =>
    by_cases hv : jsTruthy v = true
    · show jsTruthy (if jsTruthy v = true then v else Json.str "Unknown error".toList) = true
      rw [if_pos hv]
      exact hv
    · show jsTruthy (if jsTruthy v = true then v else Json.str "Unknown error".toList) = true
      rw [if_neg hv]
      decide

/-- Case analysis of the event dispatch: every branch either leaves status,
error and cost untouched, or is the `complete` branch (setting status to
`completed` and overwriting the cost when the payload carries one), or is
the `error` branch (setting status to `failed` and storing a truthy error
value resolved from the payload). -/
theorem processParsed_spec {ty : List Char} {ev : Json} {st st' : StreamState}
    {ls : List Log} (h : processParsed ty ev st = .ok (st', ls)) :
    (st'.status = st.status ∧ st'.error = st.error ∧ st'.costUsd = st.costUsd)
    ∨ (ty = "complete".toList ∧ st'.status = "completed".toList ∧ st'.error = st.error ∧
        st'.costUsd = (match jsGetFieldT ev ("costUsd".toList) with
          | some v => some v
          | none => st.costUsd))
    ∨ (ty = "error".toList ∧ st'.status = "failed".toList ∧ st'.costUsd = st.costUsd ∧
        st'.error = some (jsOrUnknown (jsGetFieldT ev ("error".toList)))) := by
  unfold processParsed at h
  split at h
  · injection h with h
    injection h with h1 h2
    subst h1
    exact Or.inl ⟨rfl, rfl, rfl⟩
  split at h
  · next hty =>
    split at h
    · exact absurd h (by simp)
    · next c hc =>
      split at h
      · split at h
        · injection h with h
          injection h with h1 h2
          subst h1
          exact Or.inl ⟨rfl, rfl, rfl⟩
        · injection h with h
          injection h with h1 h2
          subst h1
          exact Or.inl ⟨rfl, rfl, rfl⟩
      · injection h with h
        injection h with h1 h2
        subst h1
        exact Or.inl ⟨rfl, rfl, rfl⟩
  split at h
  · next hty =>
    split at h
    · exact absurd h (by simp)
    · split at h
      · split at h
        · injection h with h
          injection h with h1 h2
          subst h1
          exact Or.inl ⟨rfl, rfl, rfl⟩
        · injection h with h
          injection h with h1 h2
          subst h1
          exact Or.inl ⟨rfl, rfl, rfl⟩
      · injection h with h
        injection h with h1 h2
        subst h1
        exact Or.inl ⟨rfl, rfl, rfl⟩
  split at h
  · next hty =>
    split at h
    · exact absurd h (by simp)
    · next c hc =>
      injection h with h
      injection h with h1 h2
      subst h1
      refine Or.inr (Or.inl ⟨hty, rfl, rfl, ?_⟩)
      rw [jsGetFieldT_eq hc]
  split at h
  · next hty =>
    split at h
    · exact absurd h (by simp)
    · next eo heo =>
      injection h with h
      injection h with h1 h2
      subst h1
      refine Or.inr (Or.inr ⟨hty, rfl, rfl, ?_⟩)
      rw [jsGetFieldT_eq heo]
  · injection h with h
    injection h with h1 h2
    subst h1
    exact Or.inl ⟨rfl, rfl, rfl⟩

/-- `processParsed_spec` lifted through the JSON-parsing step. -/
theorem processSSEEvent_spec {ty d : List Char} {st st' : StreamState} {ls : List Log}
    (h : processSSEEvent ty d st = .ok (st', ls)) :
    (st'.status = st.status ∧ st'.error = st.error ∧ st'.costUsd = st.costUsd)
    ∨ (∃ j, jsonParse d = some j ∧ ty = "complete".toList ∧
        st'.status = "completed".toList ∧ st'.error = st.error ∧
        st'.costUsd = (match jsGetFieldT j ("costUsd".toList) with
          | some v => some v
          | none => st.costUsd))
    ∨ (∃ j, jsonParse d = some j ∧ ty = "error".toList ∧
        st'.status = "failed".toList ∧ st'.costUsd = st.costUsd ∧
        st'.error = some (jsOrUnknown (jsGetFieldT j ("error".toList)))) := by
  unfold processSSEEvent at h
  split at h
  · injection h with h
    injection h with h1 h2
    subst h1
    exact Or.inl ⟨rfl, rfl, rfl⟩
  · next j hj =>
    rcases processParsed_spec h with h1 | h2 | h3
    · exact Or.inl h1
    · exact Or.inr (Or.inl ⟨j, hj, h2⟩)
    · exact Or.inr (Or.inr ⟨j, hj, h3⟩)

/-- Any property preserved by each dispatched event is preserved by the fold. -/
theorem foldEvents_preserve (P : StreamState → Prop)
    (hstep : ∀ ty d st st' ls, processSSEEvent ty d st = .ok (st', ls) → P st → P st') :
    ∀ (evs : List (List Char × List Char)) (st : StreamState)
      (q : StreamState × List Log),
      foldEvents evs st = .ok q → P st → P q.1 := by
  intro evs
  induction evs with
  | nil =>
    intro st q h hP
    injection h with h
    rw [← h]
    exact hP
  | cons e rest ih =>
    intro st q h hP
    obtain ⟨ty, d⟩ := e
    simp only [foldEvents] at h
    cases hp : processSSEEvent ty d st with
    | error t =>
      rw [hp] at h
      exact absurd h (by simp)
    | ok p =>
      rw [hp] at h
      obtain ⟨st', ls⟩ := p
      have h2 : (foldEvents rest st').map (fun q => (q.1, ls ++ q.2)) = .ok q := h
      cases hf : foldEvents rest st' with
      | error t =>
        rw [hf] at h2
        exact absurd h2 (by simp [Except.map])
      | ok q' =>
        rw [hf] at h2
        simp only [Except.map, Except.ok.injEq] at h2
        rw [← h2]
        exact ih st' q' hf (hstep ty d st st' ls hp hP)

/-- Any property preserved by each dispatched event is preserved by framing a
buffer. -/
theorem parseSSELines_preserve (P : StreamState → Prop)
    (hstep : ∀ ty d st st' ls, processSSEEvent ty d st = .ok (st', ls) → P st → P st')
    {buffer : List Char} {st st' : StreamState} {rem : List Char} {logs : List Log}
    (h : parseSSELines buffer st = .ok (st', rem, logs)) (hP : P st) : P st' := by
  rw [parseSSELines_eq] at h
  cases hf : foldEvents (decodeTrace (completeLines buffer) []) st with
  | error t =>
    rw [hf] at h
    exact absurd h (by simp [Except.map])
  | ok q =>
    rw [hf] at h
    simp only [Except.map, Except.ok.injEq] at h
    have h1 : q.1 = st' := congrArg Prod.fst h
    rw [← h1]
    exact foldEvents_preserve P hstep _ st q hf hP

/-- Any property preserved by each dispatched event is preserved across the
read loop. -/
theorem readLoop_preserve (P : StreamState → Prop)
    (hstep : ∀ ty d st st' ls, processSSEEvent ty d st = .ok (st', ls) → P st → P st') :
    ∀ (chunks : List (List Char)) (e : ReadEnd) (buf : List Char)
      (st st' : StreamState), readLoop chunks e buf st = .ok st' → P st → P st' := by
  intro chunks
  induction chunks with
  | nil =>
    intro e buf st st' h hP
    cases e with
    | done =>
      injection h with h
      rw [← h]
      exact hP
    | rejects t => exact absurd h (by simp [readLoop])
  | cons c cs ih =>
    intro e buf st st' h hP
    simp only [readLoop] at h
    cases hp : parseSSELines (buf ++ c) st with
    | error t =>
      rw [hp] at h
      exact absurd h (by simp)
    | ok p =>
      rw [hp] at h
      obtain ⟨st1, rem, logs⟩ := p
      have hP1 : P st1 := parseSSELines_preserve P hstep hp hP
      have h2 : (if st1.status = "completed".toList ∨ st1.status = "failed".toList
          then Except.ok st1 else readLoop cs e rem st1) = Except.ok st' := h
      split at h2
      · injection h2 with h2
        rw [← h2]
        exact hP1
      · exact ih e rem st1 st' h2 hP1

/-- The stream-state invariant behind claim C6: a failed status always comes
with a stored truthy error value. -/
def failedImpliesError (st : StreamState) : Prop :=
  st.status = "failed".toList → ∃ v, st.error = some v ∧ jsTruthy v = true

theorem failedImpliesError_step :
    ∀ (ty d : List Char) (st st' : StreamState) (ls : List Log),
      processSSEEvent ty d st = .ok (st', ls) →
      failedImpliesError st → failedImpliesError st' := by
  intro ty d st st' ls h hP
  rcases processSSEEvent_spec h with ⟨h1, h2, _⟩ | ⟨j, _, _, h1, _, _⟩ | ⟨j, _, _, h1, _, h2⟩
  · intro hfail
    rw [h1] at hfail
    rw [h2]
    exact hP hfail
  · intro hfail
    rw [h1] at hfail
    exact absurd hfail (by decide)
  · intro _
    exact ⟨_, h2, jsOrUnknown_truthy _⟩

/-- A result produced by the degraded JSON branch is failed with a truthy
error. -/
theorem degradedBranch_spec {r : HttpResponse} {res : StreamResult}
    (h : degradedBranch r = .ok (some res)) :
    res.status = "failed".toList ∧ ∃ v, res.error = some v ∧ jsTruthy v = true := by
  unfold degradedBranch at h
  split at h
  · split at h
    · exact absurd h (by simp)
    · split at h
      · exact absurd h (by simp)
      · split at h
        · split at h
          · injection h with h
            injection h with h
            subst h
            exact ⟨rfl, _, rfl, jsOrUnknown_truthy _⟩
          · exact absurd h (by simp)
        · exact absurd h (by simp)
  · exact absurd h (by simp)

/-- A failed `streamBody` result always carries a truthy error value. -/
theorem streamBody_failed_error {fr : FetchResult} {res : StreamResult}
    (h : streamBody fr = .ok res) (hst : res.status = "failed".toList) :
    ∃ v, res.error = some v ∧ jsTruthy v = true := by
  cases fr with
  | rejected t => exact absurd h (by simp [streamBody])
  | response r =>
    simp only [streamBody] at h
    split at h
    · exact absurd h (by simp)
    · split at h
      · exact absurd h (by simp)
      · next res' hdeg =>
        injection h with h
        subst h
        exact (degradedBranch_spec hdeg).2
      · next hdeg =>
        cases hl : readLoop r.chunks r.readEnd [] initState with
        | error t =>
          rw [hl] at h
          exact absurd h (by simp [Except.map])
        | ok st =>
          rw [hl] at h
          simp only [Except.map, Except.ok.injEq] at h
          subst h
          have hinv : failedImpliesError st :=
            readLoop_preserve failedImpliesError failedImpliesError_step _ _ _ _ _ hl
              (by intro hf; exact absurd hf (by decide))
          exact hinv hst

/-- A failed `streamTaskOutput` result always carries a truthy error value. -/
theorem streamTaskOutput_failed_error {tm : Nat} {fr : FetchResult} {res : StreamResult}
    (h : streamTaskOutput tm fr = .ok res) (hst : res.status = "failed".toList) :
    ∃ v, res.error = some v ∧ jsTruthy v = true := by
  cases hb : streamBody fr with
  | ok res' =>
    have h2 : streamTaskOutput tm fr = .ok res' := by
      unfold streamTaskOutput
      rw [hb]
    rw [h2] at h
    injection h with h
    subst h
    exact streamBody_failed_error hb hst
  | error t =>
    have h2 : streamTaskOutput tm fr
        = if t.name = "AbortError".toList
          then .ok ⟨"timeout".toList, none, none, some (.str (timeoutMessage tm))⟩
          else .error t := by
      unfold streamTaskOutput
      rw [hb]
    rw [h2] at h
    split at h
    · injection h with h
      subst h
      have hne : ("timeout".toList : List Char) ≠ "failed".toList := by decide
      exact absurd hst hne
    · exact absurd h (by simp)

/-- A successfully parsed `complete` event always sets status `completed`. -/
theorem processComplete_sets_completed {d : List Char} {st st' : StreamState}
    {ls : List Log} {j : Json} (hj : jsonParse d = some j)
    (h : processSSEEvent "complete".toList d st = .ok (st', ls)) :
    st'.status = "completed".toList := by
  have h1 : processParsed "complete".toList j st = .ok (st', ls) := by
    unfold processSSEEvent at h
    rw [hj] at h
    exact h
  unfold processParsed at h1
  rw [if_neg (by decide), if_neg (by decide), if_neg (by decide), if_pos rfl] at h1
  cases hc : jsGetField j ("costUsd".toList) with
  | error t =>
    rw [hc] at h1
    exact absurd h1 (by simp)
  | ok c =>
    rw [hc] at h1
    cases c with
    | some v =>
      have h2 : (Except.ok ({ st with
          status := "completed".toList, costUsd := some v },
          [Log.info "[Stream] Task completed".toList]) : Except Thrown (StreamState × List Log))
          = .ok (st', ls) := h1
      injection h2 with h2
      injection h2 with h3 h4
      rw [← h3]
    | none =>
      have h2 : (Except.ok ({ st with
          status := "completed".toList, costUsd := st.costUsd },
          [Log.info "[Stream] Task completed".toList]) : Except Thrown (StreamState × List Log))
          = .ok (st', ls) := h1
      injection h2 with h2
      injection h2 with h3 h4
      rw [← h3]

/-- A successfully parsed `error` event sets status `failed` and stores the
resolved error value. -/
theorem processError_result {d : List Char} {st st' : StreamState}
    {ls : List Log} {j : Json} (hj : jsonParse d = some j)
    (h : processSSEEvent "error".toList d st = .ok (st', ls)) :
    st'.status = "failed".toList ∧
    st'.error = some (jsOrUnknown (jsGetFieldT j ("error".toList))) := by
  have h1 : processParsed "error".toList j st = .ok (st', ls) := by
    unfold processSSEEvent at h
    rw [hj] at h
    exact h
  unfold processParsed at h1
  rw [if_neg (by decide), if_neg (by decide), if_neg (by decide), if_neg (by decide),
    if_pos rfl] at h1
  cases he : jsGetField j ("error".toList) with
  | error t =>
    rw [he] at h1
    exact absurd h1 (by simp)
  | ok eo =>
    rw [he] at h1
    have h2 : (Except.ok ({ st with
        status := "failed".toList, error := some (jsOrUnknown eo) },
        [Log.error ("[Stream] Task failed: ".toList ++ jsToString (jsOrUnknown eo))])
        : Except Thrown (StreamState × List Log)) = .ok (st', ls) := h1
    injection h2 with h2
    injection h2 with h3 h4
    rw [← h3, jsGetFieldT_eq he]
    exact ⟨rfl, rfl⟩

/-!
## Claim theorems
-/

/-- C1.  Chunk-boundary invariance of incremental parsing fails on the code:
the pending event type set by an `event:` line is reset at the start of
every `parseSSELines` call, so feeding the same logical SSE text
`event: stdout\ndata: ...\n` as one chunk yields `outputBuffer = "hello"`,
while splitting it at the line boundary (second chunk starting with the
`data:` line) dispatches the data line with the empty event type and yields
`outputBuffer = ""`: the final `StreamState`s differ, and the dispatched
event sequences differ.  This evaluates the read loop of `streamTaskOutput`
at the failing split. -/
theorem c1_chunk_boundary_dependence :
    (readLoop ["event: stdout\ndata: \x7b\"data\":\"hello\"\x7d\n".toList]
        ReadEnd.done [] initState).toOption.map (fun st => st.outputBuffer)
      = some ("hello".toList)
    ∧ (readLoop ["event: stdout\n".toList, "data: \x7b\"data\":\"hello\"\x7d\n".toList]
        ReadEnd.done [] initState).toOption.map (fun st => st.outputBuffer)
      = some []
    ∧ readLoop ["event: stdout\ndata: \x7b\"data\":\"hello\"\x7d\n".toList]
        ReadEnd.done [] initState
      ≠ readLoop ["event: stdout\n".toList, "data: \x7b\"data\":\"hello\"\x7d\n".toList]
        ReadEnd.done [] initState := by
  refine ⟨rfl, rfl, ?_⟩
  intro heq
  have h1 : (readLoop ["event: stdout\ndata: \x7b\"data\":\"hello\"\x7d\n".toList]
      ReadEnd.done [] initState).toOption.map (fun st => st.outputBuffer)
      = some ("hello".toList) := rfl
  rw [heq] at h1
  have h2 : (readLoop ["event: stdout\n".toList, "data: \x7b\"data\":\"hello\"\x7d\n".toList]
      ReadEnd.done [] initState).toOption.map (fun st => st.outputBuffer)
      = some [] := rfl
  rw [h2] at h1
  exact absurd h1 (by decide)

/-- C2.  The failure message `run` builds from a failed `StreamResult`
(line 123 of main.ts) does not pass through the error sanitizer: a stream
whose `error` event carries a bearer token produces a failed result whose
surfaced text still contains `Bearer abc123`; sanitizing it would have
changed it to the masked form, so the surfaced text is not sanitizer-clean,
contradicting the hard requirement that every fault message reaching the
failure channel is sanitized first. -/
theorem c2_failed_message_bypasses_sanitizer :
    streamTaskOutput 1800000 (FetchResult.response
        ⟨true, 200, [], "text/event-stream".toList, none,
         ["event: error\ndata: \x7b\"error\":\"auth with Bearer abc123 failed\"\x7d\n\n".toList],
         ReadEnd.done⟩)
      = .ok ⟨"failed".toList, none, none,
          some (Json.str "auth with Bearer abc123 failed".toList)⟩
    ∧ surfaceFailedResult
        ⟨"failed".toList, none, none,
         some (Json.str "auth with Bearer abc123 failed".toList)⟩
      = some "Task execution failed: auth with Bearer abc123 failed".toList
    ∧ sanitizeChars "Task execution failed: auth with Bearer abc123 failed".toList
      ≠ "Task execution failed: auth with Bearer abc123 failed".toList
    ∧ sanitizeChars "Task execution failed: auth with Bearer abc123 failed".toList
      = "Task execution failed: auth with Bearer *** failed".toList
    ∧ surfaceThrown ⟨"Error".toList, "request with Bearer abc123 rejected".toList⟩
      = "request with Bearer *** rejected".toList := by
  refine ⟨rfl, rfl, ?_, rfl, rfl⟩
  intro heq
  have h1 : sanitizeChars "Task execution failed: auth with Bearer abc123 failed".toList
      = "Task execution failed: auth with Bearer *** failed".toList := rfl
  rw [heq] at h1
  exact absurd h1 (by decide)

/-- C5.  `processSSEEvent` is not fault-free: the payload `null` is valid
JSON, so the parse guard does not trigger, and the subsequent property read
`event.data` on `null` throws a `TypeError` (for `stdout`; `complete` and
`error` fault on their own reads likewise).  By contrast, a payload that is
not JSON at all and an unrecognized event type leave the state untouched
with only a diagnostic, as the claim says. -/
theorem c5_null_payload_fault :
    processSSEEvent "stdout".toList "null".toList initState
      = .error ⟨"TypeError".toList,
          "Cannot read properties of null (reading ".toList ++ "data".toList ++ ")".toList⟩
    ∧ processSSEEvent "stdout".toList "not-json".toList initState
      = .ok (initState,
          [Log.debug ("Failed to parse SSE data: ".toList ++ "not-json".toList)])
    ∧ processSSEEvent "custom-event".toList "\x7b\x7d".toList initState
      = .ok (initState,
          [Log.debug ("Unknown event type: ".toList ++ "custom-event".toList)]) :=
  ⟨rfl, rfl, rfl⟩

/-- C3 counterexample.  A `complete` event followed by an `error` event in
the same fold (as happens when both arrive inside one chunk, since the read
loop checks terminality only between chunks) overwrites the terminal status
`completed` with `failed`, so a terminal status can be overwritten by a
subsequent event of the same stream. -/
theorem c3_terminal_overwritten :
    (processSSEEvent "complete".toList "\x7b\x7d".toList initState).toOption.map
        (fun p => p.1.status) = some ("completed".toList)
    ∧ (foldEvents [("complete".toList, "\x7b\x7d".toList),
        ("error".toList, "\x7b\"error\":\"boom\"\x7d".toList)] initState).toOption.map
        (fun q => q.1.status) = some ("failed".toList)
    ∧ ("failed".toList : List Char) ≠ "completed".toList :=
  ⟨rfl, rfl, by decide⟩

/-- C3 amended.  Terminality (not the particular terminal value) is
monotonic: once status is `completed` or `failed` it stays in that set under
every further event, and only `complete` and `error` events ever change the
status field. -/
theorem c3_terminality_monotonic :
    (∀ (evs : List (List Char × List Char)) (st : StreamState)
        (q : StreamState × List Log),
      (st.status = "completed".toList ∨ st.status = "failed".toList) →
      foldEvents evs st = .ok q →
      (q.1.status = "completed".toList ∨ q.1.status = "failed".toList))
    ∧ (∀ (ty d : List Char) (st st' : StreamState) (ls : List Log),
      processSSEEvent ty d st = .ok (st', ls) →
      st'.status ≠ st.status → ty = "complete".toList ∨ ty = "error".toList) := by
  constructor
  · intro evs st q hterm hfold
    refine foldEvents_preserve
      (fun s => s.status = "completed".toList ∨ s.status = "failed".toList)
      ?_ evs st q hfold hterm
    intro ty d s s' ls h hP
    rcases processSSEEvent_spec h with ⟨h1, _, _⟩ | ⟨j, _, _, h1, _, _⟩ | ⟨j, _, _, h1, _, _⟩
    · rw [h1]
      exact hP
    · exact Or.inl h1
    · exact Or.inr h1
  · intro ty d st st' ls h hne
    rcases processSSEEvent_spec h with ⟨h1, _, _⟩ | ⟨j, _, hty, _, _, _⟩ | ⟨j, _, hty, _, _, _⟩
    · exact absurd h1 hne
    · exact Or.inl hty
    · exact Or.inr hty

/-- C3 witness: the terminality-preservation part applied to a concrete
stream that is already `completed` and then processes a `stdout` event. -/
theorem c3_witness :
    ((⟨"x".toList, "completed".toList, none, none⟩ : StreamState).status
        = "completed".toList
      ∨ (⟨"x".toList, "completed".toList, none, none⟩ : StreamState).status
        = "failed".toList) :=
  c3_terminality_monotonic.1 [("stdout".toList, "\x7b\"data\":\"x\"\x7d".toList)]
    ⟨[], "completed".toList, none, none⟩
    (⟨"x".toList, "completed".toList, none, none⟩, [Log.info "x".toList])
    (Or.inl rfl) rfl

/-- C4 counterexample.  Two `complete` events folded into the same stream
state (possible within one chunk) both write `costUsd`, and the second one
wins, so the first numeric value does not win and `costUsd` is not set at
most once; moreover a `complete` payload whose `costUsd` field is a string
is stored as-is, so the writer does not require a numeric cost. -/
theorem c4_cost_last_write_wins :
    (foldEvents [("complete".toList, "\x7b\"costUsd\":1\x7d".toList),
        ("complete".toList, "\x7b\"costUsd\":2\x7d".toList)] initState).toOption.map
        (fun q => q.1.costUsd) = some (some (Json.num 2 0))
    ∧ some (some (Json.num 2 0)) ≠ some (some (Json.num 1 0))
    ∧ (processSSEEvent "complete".toList "\x7b\"costUsd\":\"oops\"\x7d".toList
        initState).toOption.map (fun p => p.1.costUsd)
      = some (some (Json.str "oops".toList)) := by
  refine ⟨rfl, ?_, rfl⟩
  intro h
  injection h with h
  injection h with h
  injection h with h1 h2
  exact absurd h1 (by decide)

/-- C4 amended.  `complete` is the unique writer of `costUsd`: whenever a
dispatched event changes `costUsd`, its type is `complete` and the new value
is exactly the payload's `costUsd` field (each such event overwrites the
previous value, so the last one wins); every successfully parsed `complete`
event sets status to `completed`; and only a `complete` event can move the
status to `completed`. -/
theorem c4_cost_writer_unique :
    (∀ (ty d : List Char) (st st' : StreamState) (ls : List Log),
      processSSEEvent ty d st = .ok (st', ls) → st'.costUsd ≠ st.costUsd →
      ty = "complete".toList ∧ ∃ j v, jsonParse d = some j ∧
        jsGetFieldT j ("costUsd".toList) = some v ∧ st'.costUsd = some v)
    ∧ (∀ (d : List Char) (st st' : StreamState) (ls : List Log) (j : Json),
      jsonParse d = some j → processSSEEvent "complete".toList d st = .ok (st', ls) →
      st'.status = "completed".toList)
    ∧ (∀ (ty d : List Char) (st st' : StreamState) (ls : List Log),
      processSSEEvent ty d st = .ok (st', ls) → st'.status = "completed".toList →
      st.status ≠ "completed".toList → ty = "complete".toList) := by
  refine ⟨?_, ?_, ?_⟩
  · intro ty d st st' ls h hne
    rcases processSSEEvent_spec h with ⟨_, _, h1⟩ | ⟨j, hj, hty, _, _, h1⟩ | ⟨j, _, _, _, h1, _⟩
    · exact absurd h1 hne
    · refine ⟨hty, j, ?_⟩
      cases hc : jsGetFieldT j ("costUsd".toList) with
      | none =>
        rw [hc] at h1
        exact absurd h1 hne
      | some v =>
        rw [hc] at h1
        exact ⟨v, hj, rfl, h1⟩
    · exact absurd h1 hne
  · intro d st st' ls j hj h
    exact processComplete_sets_completed hj h
  · intro ty d st st' ls h hc hne
    rcases processSSEEvent_spec h with ⟨h1, _, _⟩ | ⟨j, _, hty, _, _, _⟩ | ⟨j, _, _, h1, _, _⟩
    · rw [h1] at hc
      exact absurd hc hne
    · exact hty
    · rw [hc] at h1
      exact absurd h1 (by decide)

/-- C4 witness: the unique-writer part applied to a `complete` event whose
payload carries cost 3, dispatched from the fresh state. -/
theorem c4_witness :
    "complete".toList = "complete".toList ∧
    ∃ j v, jsonParse ("\x7b\"costUsd\":3\x7d".toList) = some j ∧
      jsGetFieldT j ("costUsd".toList) = some v ∧
      (⟨[], "completed".toList, none, some (Json.num 3 0)⟩ : StreamState).costUsd
        = some v :=
  c4_cost_writer_unique.1 "complete".toList ("\x7b\"costUsd\":3\x7d".toList)
    initState ⟨[], "completed".toList, none, some (Json.num 3 0)⟩
    [Log.info "[Stream] Task completed".toList] rfl
    (by intro h; exact Option.noConfusion h)

/-- C6 counterexample.  An `error` event whose payload carries a present but
empty `error` field does not store that field: the empty string is falsy, so
the code stores the literal `Unknown error` instead of the present value. -/
theorem c6_present_empty_error_replaced :
    jsonParse "\x7b\"error\":\"\"\x7d".toList
      = some (Json.obj [("error".toList, Json.str [])])
    ∧ jsGetFieldT (Json.obj [("error".toList, Json.str [])]) ("error".toList)
      = some (Json.str [])
    ∧ (processSSEEvent "error".toList "\x7b\"error\":\"\"\x7d".toList
        initState).toOption.map (fun p => p.1.error)
      = some (some (Json.str "Unknown error".toList))
    ∧ some (some (Json.str "Unknown error".toList)) ≠ some (some (Json.str [])) := by
  refine ⟨rfl, rfl, rfl, ?_⟩
  intro h
  injection h with h
  injection h with h
  injection h with h
  exact absurd h (by decide)

/-- C6 amended.  Whenever `streamTaskOutput` returns a failed result (by an
`error` stream event or by the degraded JSON branch) the error is non-null —
indeed truthy; and an `error` event stores its payload's `error` field when
that field is present and truthy, falling back to the literal
`Unknown error` when the field is missing or falsy. -/
theorem c6_failed_error_nonnull :
    (∀ (tm : Nat) (fr : FetchResult) (res : StreamResult),
      streamTaskOutput tm fr = .ok res → res.status = "failed".toList →
      ∃ v, res.error = some v ∧ jsTruthy v = true)
    ∧ (∀ (d : List Char) (st st' : StreamState) (ls : List Log) (j : Json),
      jsonParse d = some j → processSSEEvent "error".toList d st = .ok (st', ls) →
      st'.status = "failed".toList ∧
      st'.error = some (jsOrUnknown (jsGetFieldT j ("error".toList)))) := by
  constructor
  · intro tm fr res h hst
    exact streamTaskOutput_failed_error h hst
  · intro d st st' ls j hj h
    exact processError_result hj h

/-- C6 witness: the stream-level part applied to a concrete stream whose
`error` event carries the message `boom`. -/
theorem c6_witness :
    ∃ v, (⟨"failed".toList, none, none, some (Json.str "boom".toList)⟩
        : StreamResult).error = some v ∧ jsTruthy v = true :=
  c6_failed_error_nonnull.1 1000
    (FetchResult.response ⟨true, 200, [], "text/event-stream".toList, none,
      ["event: error\ndata: \x7b\"error\":\"boom\"\x7d\n\n".toList], ReadEnd.done⟩)
    ⟨"failed".toList, none, none, some (Json.str "boom".toList)⟩ rfl rfl

/-- Unfolding of `streamTaskOutput` when the body throws. -/
theorem streamTaskOutput_of_error {fr : FetchResult} {t : Thrown}
    (hb : streamBody fr = .error t) (tm : Nat) :
    streamTaskOutput tm fr
      = if t.name = "AbortError".toList
        then .ok ⟨"timeout".toList, none, none, some (Json.str (timeoutMessage tm))⟩
        else .error t := by
  unfold streamTaskOutput
  rw [hb]

/-- C7 counterexample.  The framer's contract does not hold for every input
buffer: a buffer whose complete lines contain a recognized event with the
valid-JSON payload `null` makes the dispatch throw, so `parseSSELines`
propagates a fault and the trailing fragment `tail` is never returned as
carry-over. -/
theorem c7_throwing_dispatch_returns_nothing :
    parseSSELines "event: stdout\ndata: null\ntail".toList initState
      = .error ⟨"TypeError".toList,
          "Cannot read properties of null (reading ".toList ++ "data".toList
            ++ ")".toList⟩ := rfl

/-- C7 amended.  Provided every dispatched event completes without a fault,
the framing contract holds: `parseSSELines` equals the fold of the decoded
trace of its complete lines (so nothing is dispatched from the remainder and
no line is processed twice), the returned carry-over is exactly the text
after the last newline (the whole buffer when no newline is present, empty
for the empty buffer, with nothing dispatched in those cases), `event:`
lines set the trimmed pending type without dispatching, `data:` lines
dispatch everything after the 6-character prefix paired with the pending
type (empty if none) and clear it, and every other line is ignored. -/
theorem c7_framer_contract :
    (∀ (buffer : List Char) (st : StreamState),
      parseSSELines buffer st
        = (foldEvents (decodeTrace (completeLines buffer) []) st).map
            (fun p => (p.1, (splitNl buffer).getLastD [], p.2)))
    ∧ (∀ a b : List Char, '\n' ∉ b → (splitNl (a ++ '\n' :: b)).getLastD [] = b)
    ∧ (∀ (b : List Char) (st : StreamState), '\n' ∉ b →
        parseSSELines b st = .ok (st, b, []))
    ∧ (∀ st : StreamState, parseSSELines [] st = .ok (st, [], []))
    ∧ (∀ (t : List Char) (rest : List (List Char)) (p : List Char),
        decodeTrace (("event: ".toList ++ t) :: rest) p
          = decodeTrace rest (trimChars t))
    ∧ (∀ (d : List Char) (rest : List (List Char)) (p : List Char),
        decodeTrace (("data: ".toList ++ d) :: rest) p
          = (p, d) :: decodeTrace rest [])
    ∧ (∀ (line : List Char) (rest : List (List Char)) (p : List Char),
        "event: ".toList.isPrefixOf line = false →
        "data: ".toList.isPrefixOf line = false →
        decodeTrace (line :: rest) p = decodeTrace rest p) := by
  refine ⟨parseSSELines_eq, ?_, ?_, fun st => rfl, decodeTrace_event, decodeTrace_data,
    fun line rest p h1 h2 => decodeTrace_skip rest p h1 h2⟩
  · intro a b h
    exact splitNl_last_of_append h
  · intro b st h
    unfold parseSSELines
    rw [splitNl_no_newline h]
    rfl

/-- C7 witness: a newline-free buffer is returned whole as carry-over with
nothing dispatched. -/
theorem c7_witness :
    parseSSELines "partial".toList initState
      = .ok (initState, "partial".toList, []) :=
  c7_framer_contract.2.2.1 "partial".toList initState (by decide)

/-- C8.  If the operation ended because the armed timer aborted it (the
thrown fault is an `AbortError`, whether from the `fetch` itself or observed
at a pending read), `streamTaskOutput` returns a `timeout` result whose
error text contains the configured duration, instead of propagating the
abort; every other fault of the body propagates to the caller unchanged. -/
theorem c8_timeout_translation :
    (∀ (tm : Nat) (t : Thrown) (fr : FetchResult),
      streamBody fr = .error t → t.name = "AbortError".toList →
      streamTaskOutput tm fr
        = .ok ⟨"timeout".toList, none, none, some (Json.str (timeoutMessage tm))⟩)
    ∧ (∀ (tm : Nat) (t : Thrown) (fr : FetchResult),
      streamBody fr = .error t → t.name ≠ "AbortError".toList →
      streamTaskOutput tm fr = .error t)
    ∧ (∀ (tm : Nat) (m : List Char),
      streamTaskOutput tm (FetchResult.rejected ⟨"AbortError".toList, m⟩)
        = .ok ⟨"timeout".toList, none, none, some (Json.str (timeoutMessage tm))⟩)
    ∧ (∀ tm : Nat, ∃ pre post, timeoutMessage tm = pre ++ natToChars tm ++ post) := by
  refine ⟨?_, ?_, ?_, ?_⟩
  · intro tm t fr hb hname
    rw [streamTaskOutput_of_error hb, if_pos hname]
  · intro tm t fr hb hname
    rw [streamTaskOutput_of_error hb, if_neg hname]
  · intro tm m
    rw [@streamTaskOutput_of_error (FetchResult.rejected ⟨"AbortError".toList, m⟩)
      ⟨"AbortError".toList, m⟩ rfl tm, if_pos rfl]
  · intro tm
    exact ⟨"Task execution exceeded timeout (".toList, "ms)".toList, rfl⟩

/-- C8 witness: a fetch rejected with an `AbortError` at timeout 30000 ms
yields the timeout result. -/
theorem c8_witness :
    streamTaskOutput 30000
        (FetchResult.rejected ⟨"AbortError".toList, "The operation was aborted".toList⟩)
      = .ok ⟨"timeout".toList, none, none, some (Json.str (timeoutMessage 30000))⟩ :=
  c8_timeout_translation.2.2.1 30000 ("The operation was aborted".toList)

/-- C9.  The error sanitizer returns pattern-free text unchanged, is
idempotent, leaves no bearer occurrence other than the literal mask in its
output (every occurrence of `Bearer` + whitespace + nonspace-run is
replaced), and maps the spec's example to its masked form. -/
theorem c9_sanitizer_contract :
    (∀ s : List Char, hasPattern s = false → sanitizeChars s = s)
    ∧ (∀ s : List Char, sanitizeChars (sanitizeChars s) = sanitizeChars s)
    ∧ (∀ s : List Char, leakFree (sanitizeChars s))
    ∧ sanitizeChars "Request failed with Bearer abc123 in header".toList
      = "Request failed with Bearer *** in header".toList :=
  ⟨fun _ h => sanitize_no_pattern h, sanitize_idem, leakFree_sanitize, rfl⟩

/-- C9 witness: a pattern-free message is returned unchanged. -/
theorem c9_witness :
    sanitizeChars "no tokens here".toList = "no tokens here".toList :=
  c9_sanitizer_contract.1 ("no tokens here".toList) (by decide)

/-- C10.  Every call to `parseSSELines` begins with an empty pending event
type: for any buffer (and any incoming state, in particular one produced by
a previous call that ended right after an `event:` line) whose complete
lines consist of non-`event:`/non-`data:` lines followed by a `data:` line,
the first dispatched event carries the empty event type. -/
theorem c10_pending_type_reset :
    ∀ (buffer : List Char) (st : StreamState) (pre rest : List (List Char))
      (d : List Char),
      completeLines buffer = pre ++ ("data: ".toList ++ d) :: rest →
      (∀ l ∈ pre, "event: ".toList.isPrefixOf l = false ∧
        "data: ".toList.isPrefixOf l = false) →
      decodeTrace (completeLines buffer) [] = ([], d) :: decodeTrace rest []
      ∧ parseSSELines buffer st
        = (foldEvents (([], d) :: decodeTrace rest []) st).map
            (fun p => (p.1, (splitNl buffer).getLastD [], p.2)) := by
  intro buffer st pre rest d h1 h2
  have htr : decodeTrace (completeLines buffer) [] = ([], d) :: decodeTrace rest [] := by
    rw [h1, decodeTrace_skip_prefix pre _ [] h2, decodeTrace_data]
  refine ⟨htr, ?_⟩
  rw [parseSSELines_eq, htr]

/-- C10 witness: a comment line followed by a `data:` line dispatches with
the empty event type. -/
theorem c10_witness :
    decodeTrace (completeLines (":c\ndata: \x7b\x7d\n".toList)) []
      = ([], "\x7b\x7d".toList) :: decodeTrace [] []
    ∧ parseSSELines (":c\ndata: \x7b\x7d\n".toList) initState
      = (foldEvents (([], "\x7b\x7d".toList) :: decodeTrace [] []) initState).map
          (fun p => (p.1, (splitNl (":c\ndata: \x7b\x7d\n".toList)).getLastD [], p.2)) :=
  c10_pending_type_reset (":c\ndata: \x7b\x7d\n".toList) initState
    [":c".toList] [] ("\x7b\x7d".toList) rfl (by decide)

end VibectlRun
